import Mathlib

/-!
# Verification of the foilsigh Markdown slide compiler and image store

Shallow embedding of `src/src/components/RevealPreview.tsx` (`markdownToSlides`,
its nested-list parser `parseList`, and the `resolveImages` effect) and of
`src/lib/imageStore.ts` (`storeImage`, `getStorageSize`, `cleanupUnusedImages`).

Strings are modelled as `List Char`; each JavaScript regex replacement is
embedded as a hand-rolled scanner with the exact left-to-right,
continue-after-match semantics of `String.prototype.replace` with a global
regex, including the relevant backtracking behaviour of lazy quantifiers.
-/

set_option maxRecDepth 10000

namespace Foilsigh

/-!
Every left-to-right scanner below is written with an explicit fuel argument
that decreases by one at each recursive step, so that all definitions are
structurally recursive and reduce inside the kernel.  Each step of a scan
consumes at least one character, so fuel equal to the input length is always
sufficient, and the wrappers (which carry the source names) supply exactly
that; the fuel-exhausted branches are unreachable from the wrappers.
-/

/-- Fueled body of `splitOnSep`. -/
def splitOnSepF (sep : List Char) : Nat → List Char → List (List Char)
  | _, [] => [[]]
  | 0, s => [s]
  | fuel + 1, c :: rest =>
    if sep ≠ [] ∧ sep.isPrefixOf (c :: rest) then
      [] :: splitOnSepF sep fuel ((c :: rest).drop sep.length)
    else
      match splitOnSepF sep fuel rest with
      | [] => [[c]]
      | seg :: segs => (c :: seg) :: segs

/-- Split a char list at every non-overlapping occurrence of `sep`, scanning
left to right, as JavaScript `String.prototype.split` does for a non-empty
separator.  Always returns at least one segment. -/
def splitOnSep (sep s : List Char) : List (List Char) :=
  splitOnSepF sep s.length s

/-- `containsSub pat s` is `true` iff `pat` occurs as a contiguous substring
of `s` (JavaScript `String.prototype.includes`). -/
def containsSub (pat : List Char) : List Char → Bool
  | [] => pat.isEmpty
  | s@(_ :: rest) => pat.isPrefixOf s || containsSub pat rest

/-- Split `s` at the first occurrence of `pat`, returning the text before the
occurrence and the text after it, or `none` when `pat` does not occur.
Models a lazy `[\s\S]*?` followed by the literal `pat`. -/
def findSub (pat : List Char) : List Char → Option (List Char × List Char)
  | [] => if pat.isEmpty then some ([], []) else none
  | s@(c :: rest) =>
    if pat.isPrefixOf s then some ([], s.drop pat.length)
    else
      match findSub pat rest with
      | some (b, a) => some (c :: b, a)
      | none => none

/-- JavaScript whitespace as far as `String.prototype.trim` is concerned
(the characters that can occur in this code base). -/
def isWsp (c : Char) : Bool :=
  c = ' ' || c = '\t' || c = '\n' || c = '\r' || c = '\x0b' || c = '\x0c'

/-- `String.prototype.trim`: strip leading and trailing whitespace. -/
def trimL (s : List Char) : List Char :=
  ((s.dropWhile isWsp).reverse.dropWhile isWsp).reverse

/-- Apply a per-line rewrite to every line of `s` (the effect of a global
regex anchored with `^`/`$` under the `m` flag, for patterns that can neither
match nor produce a newline boundary change across lines). -/
def mapLines (f : List Char → List Char) (s : List Char) : List Char :=
  List.intercalate ['\n'] ((splitOnSep ['\n'] s).map f)

/-- `escapeHtml` (RevealPreview.tsx:122-126): setting `textContent` on a div
and reading back `innerHTML` escapes exactly `&`, `<` and `>`. -/
def escapeHtmlChar (c : Char) : List Char :=
  if c = '&' then "&amp;".toList
  else if c = '<' then "&lt;".toList
  else if c = '>' then "&gt;".toList
  else [c]

/-- `escapeHtml` lifted to a whole string. -/
def escapeHtml (s : List Char) : List Char := s.flatMap escapeHtmlChar

/-- One heading rewrite `^#+ (.+)$` (with the `m` flag) applied to a single
line: a line starting with `marker` whose remainder is non-empty becomes
`openT ++ remainder ++ closeT`. -/
def headerLine (marker openT closeT : List Char) (l : List Char) : List Char :=
  if marker.isPrefixOf l ∧ l.drop marker.length ≠ [] then
    openT ++ l.drop marker.length ++ closeT
  else l

/-- Fueled body of `mermaidPass`. -/
def mermaidPassF : Nat → List Char → List Char
  | _, [] => []
  | 0, s => s
  | fuel + 1, c :: rest =>
    if ("```mermaid\n".toList).isPrefixOf (c :: rest) then
      match findSub ("```".toList) ((c :: rest).drop 11) with
      | some (body, after) =>
          "<div class=\"mermaid fragment\">".toList ++ trimL body ++ "</div>".toList ++
            mermaidPassF fuel after
      | none => c :: mermaidPassF fuel rest
    else c :: mermaidPassF fuel rest

/-- RevealPreview.tsx:39-41, the global replace of
`/```mermaid\n([\s\S]*?)```/` by `<div class="mermaid fragment">…</div>`
with the lazy body running to the earliest closing fence. -/
def mermaidPass (s : List Char) : List Char := mermaidPassF s.length s

/-- JavaScript `\w`. -/
def isWordChar (c : Char) : Bool := c.isAlphanum || c = '_'

/-- Fueled body of `codePass`. -/
def codePassF : Nat → List Char → List Char
  | _, [] => []
  | 0, s => s
  | fuel + 1, c :: rest =>
    if ("```".toList).isPrefixOf (c :: rest) ∧
        (((c :: rest).drop 3).dropWhile isWordChar).head? = some '\n' then
      let lang := ((c :: rest).drop 3).takeWhile isWordChar
      match findSub ("```".toList) ((((c :: rest).drop 3).dropWhile isWordChar).tail) with
      | some (body, after) =>
          (if lang.isEmpty then "<pre><code>".toList
           else "<pre><code class=\"language-".toList ++ lang ++ "\">".toList)
            ++ escapeHtml (trimL body) ++ "</code></pre>".toList ++ codePassF fuel after
      | none => c :: codePassF fuel rest
    else c :: codePassF fuel rest

/-- RevealPreview.tsx:44-47, the global replace of
`/```(\w+)?\n([\s\S]*?)```/` by a `<pre><code>` block whose body is trimmed
and HTML-escaped, keeping an optional `language-…` class: the optional
`(\w+)?` matches exactly when the run of word characters after the fence is
followed by a newline. -/
def codePass (s : List Char) : List Char := codePassF s.length s

/-- Fueled body of `inlineCodePass`. -/
def inlineCodePassF : Nat → List Char → List Char
  | _, [] => []
  | 0, s => s
  | fuel + 1, c :: rest =>
    if c = '`' ∧ (rest.dropWhile (fun x => x ≠ '`')).head? = some '`' ∧
        rest.takeWhile (fun x => x ≠ '`') ≠ [] then
      "<code>".toList ++ rest.takeWhile (fun x => x ≠ '`') ++ "</code>".toList ++
        inlineCodePassF fuel ((rest.dropWhile (fun x => x ≠ '`')).tail)
    else c :: inlineCodePassF fuel rest

/-- RevealPreview.tsx:50, the global replace of `` /`([^`]+)`/ `` by
`<code>$1</code>`: a backtick, at least one non-backtick character, and the
next backtick. -/
def inlineCodePass (s : List Char) : List Char := inlineCodePassF s.length s

/-- Split `s` at the first occurrence of `pat` that starts at index ≥ 1,
returning the (non-empty) text before it and the text after it.  This is the
shape of a lazy `(.+?)` followed by the literal `pat`. -/
def splitFirstSubFrom1 (pat : List Char) : List Char → Option (List Char × List Char)
  | [] => none
  | c :: rest =>
    match findSub pat rest with
    | some (b, a) => some (c :: b, a)
    | none => none

/-- Fueled body of `emphLine`. -/
def emphLineF (mark tagO tagC : List Char) : Nat → List Char → List Char
  | _, [] => []
  | 0, s => s
  | fuel + 1, c :: rest =>
    if mark ≠ [] ∧ mark.isPrefixOf (c :: rest) then
      match splitFirstSubFrom1 mark ((c :: rest).drop mark.length) with
      | some (body, tail) => tagO ++ body ++ tagC ++ emphLineF mark tagO tagC fuel tail
      | none => c :: emphLineF mark tagO tagC fuel rest
    else c :: emphLineF mark tagO tagC fuel rest

/-- RevealPreview.tsx:53 and :56, the global replaces of `/\*\*(.+?)\*\*/`
and `/\*(.+?)\*/` (on a single line — the lazy `.` cannot cross a newline):
an occurrence of `mark`, the shortest non-empty body followed by `mark`
again.  On failure the scan advances one character, exactly like the regex
engine. -/
def emphLine (mark tagO tagC : List Char) (l : List Char) : List Char :=
  emphLineF mark tagO tagC l.length l

/-- A parsed list line (RevealPreview.tsx:94-100): its leading-space count
and the item text after the `- ` marker. -/
structure LItem where
  indent : Nat
  text : List Char
deriving DecidableEq, Repr

/-- The test `/^[ ]*- /` used both by the list-block regex and the filter
inside the callback (RevealPreview.tsx:59-60). -/
def isListLine (l : List Char) : Bool :=
  ("- ".toList).isPrefixOf (l.dropWhile (fun c => c = ' '))

/-- RevealPreview.tsx:94-100: indent = number of leading spaces, text =
remainder after the `- ` marker. -/
def toItem (l : List Char) : LItem :=
  ⟨(l.takeWhile (fun c => c = ' ')).length, (l.dropWhile (fun c => c = ' ')).drop 2⟩

/-- The `while` loop of `parseList` (RevealPreview.tsx:62-92): at `depth`,
an item whose indent equals `depth * 2` is emitted as a fragment `<li>`, the
immediately following run of strictly deeper items becomes a recursively
parsed nested `<ul>`; any other item is skipped (`i++`, no output). -/
def parseListGoF : Nat → List LItem → Nat → List Char
  | _, [], _ => []
  | 0, _, _ => []
  | fuel + 1, it :: rest, depth =>
    if it.indent = depth * 2 then
      (if (rest.takeWhile (fun x => decide (depth * 2 < x.indent))).isEmpty then
        "<li class=\"fragment\">".toList ++ it.text ++ "</li>\n".toList
       else
        "<li class=\"fragment\">".toList ++ it.text ++ ['\n'] ++
          ("<ul>\n".toList ++
            parseListGoF fuel (rest.takeWhile (fun x => decide (depth * 2 < x.indent)))
              (depth + 1) ++
            "</ul>".toList) ++ "</li>\n".toList)
      ++ parseListGoF fuel (rest.dropWhile (fun x => decide (depth * 2 < x.indent))) depth
    else parseListGoF fuel rest depth

/-- The `while` loop of `parseList` at a given depth, with fuel the item
count. -/
def parseListGo (items : List LItem) (depth : Nat) : List Char :=
  parseListGoF items.length items depth

/-- `parseList(items, depth)` (RevealPreview.tsx:62-92). -/
def parseList (items : List LItem) (depth : Nat) : List Char :=
  "<ul>\n".toList ++ parseListGo items depth ++ "</ul>".toList

/-- The replacement callback for one matched list block
(RevealPreview.tsx:59-103): split on newlines, keep the lines matching
`/^[ ]*- /`, convert to items, and run `parseList` at depth 0. -/
def listBlockToHtml (listBlock : List Char) : List Char :=
  parseList (((splitOnSep ['\n'] listBlock).filter isListLine).map toItem) 0

/-- The global replace of `/(?:^[ ]*- .*$\n?)+/m` over the document's lines:
each maximal run of list lines is replaced by its `listBlockToHtml`; the
`\n?` swallows the newline after the run's last line when one is present. -/
def listsGoF : Nat → List (List Char) → List Char
  | _, [] => []
  | 0, ls => List.intercalate ['\n'] ls
  | fuel + 1, l :: ls =>
    if isListLine l then
      listBlockToHtml (List.intercalate ['\n'] (l :: ls.takeWhile isListLine)) ++
        listsGoF fuel (ls.dropWhile isListLine)
    else
      l ++ (if ls.isEmpty then [] else '\n' :: listsGoF fuel ls)

/-- The list-block replacement over the document's line list, with fuel the
line count. -/
def listsGo (lines : List (List Char)) : List Char :=
  listsGoF lines.length lines

/-- RevealPreview.tsx:59-103 applied to the whole slide text. -/
def listsPass (s : List Char) : List Char :=
  listsGo (splitOnSep ['\n'] s)

/-- The lazy-`(.+?)` search for `](`, a lazily matched non-empty URL and
`)` inside one line, with the exact backtracking of `/\[(.+?)\]\((.+?)\)/`:
at each position, if the next two characters are `](` and a `)` terminates a
non-empty URL after them, the match succeeds with the accumulated text;
otherwise the text grows by one character and scanning resumes at the next
position (so a failed `](` candidate is swallowed into the link text). -/
def tryLinkGo (acc : List Char) : List Char → Option (List Char × List Char × List Char)
  | [] => none
  | c :: rest =>
    match (if c = ']' ∧ rest.head? = some '(' then splitFirstSubFrom1 [')'] rest.tail
           else none) with
    | some (u, after) => some (acc, u, after)
    | none => tryLinkGo (acc ++ [c]) rest

/-- Match the tail of a link/image after the opening bracket: the non-empty
lazy text, the non-empty lazy URL, and the rest of the line. -/
def tryLink : List Char → Option (List Char × List Char × List Char)
  | [] => none
  | c :: rest => tryLinkGo [c] rest

/-- Fueled body of `linkLine`. -/
def linkLineF : Nat → List Char → List Char
  | _, [] => []
  | 0, s => s
  | fuel + 1, c :: rest =>
    if c = '[' then
      match tryLink rest with
      | some (t, u, after) =>
          "<a href=\"".toList ++ u ++ "\">".toList ++ t ++ "</a>".toList ++
            linkLineF fuel after
      | none => c :: linkLineF fuel rest
    else c :: linkLineF fuel rest

/-- RevealPreview.tsx:106, the global replace of `/\[(.+?)\]\((.+?)\)/` by
`<a href="$2">$1</a>`, on one line (the lazy `.` cannot cross a newline). -/
def linkLine (l : List Char) : List Char := linkLineF l.length l

/-- Fueled body of `imageLine`. -/
def imageLineF : Nat → List Char → List Char
  | _, [] => []
  | 0, s => s
  | fuel + 1, c :: rest =>
    if c = '!' ∧ rest.head? = some '[' then
      match tryLink rest.tail with
      | some (t, u, after) =>
          "<img class=\"fragment\" src=\"".toList ++ u ++ "\" alt=\"".toList ++ t ++
            "\" />".toList ++ imageLineF fuel after
      | none => c :: imageLineF fuel rest
    else c :: imageLineF fuel rest

/-- RevealPreview.tsx:109, the global replace of `/!\[(.+?)\]\((.+?)\)/` by
`<img class="fragment" src="$2" alt="$1" />`, on one line. -/
def imageLine (l : List Char) : List Char := imageLineF l.length l

/-- The tail of the lookahead `class="[^"]*fragment`: `fragment` must occur
before the first `"` after `class="`. -/
def fragCheck (cs : List Char) : Bool :=
  containsSub ("fragment".toList) (cs.takeWhile (fun c => c ≠ '"'))

/-- The lookahead `(?=[^>]*class="[^"]*fragment)` evaluated at the position
just after `<img`: some occurrence of `class="` within the run of
non-`>` characters is followed (before the next `"`) by `fragment`. -/
def lookaheadCF : List Char → Bool
  | [] => false
  | c :: rest =>
    if c = '>' then false
    else if ("class=\"".toList).isPrefixOf (c :: rest) ∧ fragCheck ((c :: rest).drop 7) then
      true
    else lookaheadCF rest

/-- RevealPreview.tsx:112, the global replace of
`/<img(?![^>]*class="[^"]*fragment)([^>]*)>/` by `<img class="fragment"$1>`:
an `<img` whose attribute text (up to the first `>`) does not already carry a
`fragment` class gets the class prepended. -/
def imgTagPassF : Nat → List Char → List Char
  | _, [] => []
  | 0, s => s
  | fuel + 1, c :: rest =>
    if ("<img".toList).isPrefixOf (c :: rest) ∧ ¬ lookaheadCF ((c :: rest).drop 4) ∧
        ((((c :: rest).drop 4).dropWhile (fun x => x ≠ '>')).head? = some '>') then
      "<img class=\"fragment\"".toList ++ ((c :: rest).drop 4).takeWhile (fun x => x ≠ '>') ++
        ['>'] ++ imgTagPassF fuel ((((c :: rest).drop 4).dropWhile (fun x => x ≠ '>')).tail)
    else c :: imgTagPassF fuel rest

/-- RevealPreview.tsx:112 applied to the whole slide text. -/
def imgTagPass (s : List Char) : List Char := imgTagPassF s.length s

/-- The line test `(?!<[hupoli]|$)` of the paragraph wrapper: a line is left
alone iff it is empty or starts with `<` followed by one of `h u p o l i`. -/
def isBlockStart : List Char → Bool
  | '<' :: c :: _ => c = 'h' || c = 'u' || c = 'p' || c = 'o' || c = 'l' || c = 'i'
  | _ => false

/-- RevealPreview.tsx:115, the per-line paragraph wrap
`/^(?!<[hupoli]|$)(.+)$/m` → `<p>$1</p>`. -/
def paragraphLine (l : List Char) : List Char :=
  if l.isEmpty || isBlockStart l then l else "<p>".toList ++ l ++ "</p>".toList

/-- The per-slide body of `markdownToSlides` (RevealPreview.tsx:29-117):
trim, then the fixed sequence of regex passes, then wrap in `<section>`. -/
def compileSlide (slideContent : List Char) : List Char :=
  let html := trimL slideContent
  let html := mapLines (headerLine ("### ".toList) ("<h3>".toList) ("</h3>".toList)) html
  let html := mapLines (headerLine ("## ".toList) ("<h2>".toList) ("</h2>".toList)) html
  let html := mapLines (headerLine ("# ".toList) ("<h1>".toList) ("</h1>".toList)) html
  let html := mermaidPass html
  let html := codePass html
  let html := inlineCodePass html
  let html := mapLines (emphLine ("**".toList) ("<strong>".toList) ("</strong>".toList)) html
  let html := mapLines (emphLine (['*']) ("<em>".toList) ("</em>".toList)) html
  let html := listsPass html
  let html := mapLines linkLine html
  let html := mapLines imageLine html
  let html := imgTagPass html
  let html := mapLines paragraphLine html
  "<section>".toList ++ html ++ "</section>".toList

/-- The slide delimiter regex `/\n---\n/` of RevealPreview.tsx:26. -/
def slideDelim : List Char := "\n---\n".toList

/-- `markdownToSlides` (RevealPreview.tsx:24-120): split the document on
`\n---\n`, compile each slide, and join the `<section>`s with newlines. -/
def markdownToSlides (markdown : String) : String :=
  ⟨List.intercalate ['\n'] ((splitOnSep slideDelim markdown.toList).map compileSlide)⟩

/-! ## The content-addressable image store (`src/lib/imageStore.ts`)

The IndexedDB object store of imageStore.ts is keyed by `id`
(`createObjectStore(STORE_NAME, { keyPath: 'id' })`), so `store.put` is an
upsert: it replaces the record with the same key and appends otherwise.  A
record holds the blob (modelled as its byte list), its mime type and the
informational `createdAt` timestamp. -/

/-- A stored image record (imageStore.ts:10-15), with the blob as bytes. -/
structure StoredImage where
  id : String
  data : List Nat
  mimeType : String
  createdAt : Nat
deriving DecidableEq, Repr

/-- IndexedDB `store.put` on a store with `keyPath: 'id'`: replace the
record with the same key if present, append otherwise. -/
def idbPut (st : List StoredImage) (img : StoredImage) : List StoredImage :=
  if st.any (fun e => e.id = img.id) then
    st.map (fun e => if e.id = img.id then img else e)
  else st ++ [img]

/-- `generateImageId` (imageStore.ts:60-66): `img-` followed by the first 16
characters of the lowercase-hex digest of the bytes.  The hash function
(`crypto.subtle.digest('SHA-256', …)` rendered as hex) is abstracted as a
parameter. -/
def generateImageId (hash : List Nat → List Char) (bytes : List Nat) : String :=
  ⟨"img-".toList ++ (hash bytes).take 16⟩

/-- `storeImage` (imageStore.ts:71-113): compute the content id of the blob
and `put` the record; returns the id and the new store state. -/
def storeImage (hash : List Nat → List Char) (st : List StoredImage)
    (bytes : List Nat) (mimeType : String) (now : Nat) : String × List StoredImage :=
  let id := generateImageId hash bytes
  (id, idbPut st ⟨id, bytes, mimeType, now⟩)

/-- `getAllImageIds` (imageStore.ts:161-172): the stored keys. -/
def getAllImageIds (st : List StoredImage) : List String :=
  st.map StoredImage.id

/-- `deleteImage` (imageStore.ts:177-188): delete by key. -/
def deleteImage (st : List StoredImage) (id : String) : List StoredImage :=
  st.filter (fun e => e.id ≠ id)

/-- `getStorageSize` (imageStore.ts:210-225): sum of the stored blob
sizes. -/
def getStorageSize (st : List StoredImage) : Nat :=
  (st.map (fun img => img.data.length)).sum

/-- The body of the `for` loop of `cleanupUnusedImages`
(imageStore.ts:197-202): skip an id that occurs in the markdown, delete and
count an id that does not. -/
def cleanupStep (markdown : String) (acc : Nat × List StoredImage) (id : String) :
    Nat × List StoredImage :=
  if containsSub id.toList markdown.toList then acc
  else (acc.1 + 1, deleteImage acc.2 id)

/-- `cleanupUnusedImages` (imageStore.ts:193-205): walk the id list taken at
the start, delete every id that does not occur as a substring of the
markdown, and count the deletions.  Returns (count, new store state). -/
def cleanupUnusedImages (st : List StoredImage) (markdown : String) :
    Nat × List StoredImage :=
  (getAllImageIds st).foldl (cleanupStep markdown) (0, st)

/-! ## The reference resolver (`RevealPreview.tsx:137-169`) -/

/-- A lowercase hex digit, the character class `[a-f0-9]`. -/
def isHexLower (c : Char) : Bool := c.isDigit || ('a' ≤ c && c ≤ 'f')

/-- The matches of `/img-[a-f0-9]{16}/g` in scan order
(RevealPreview.tsx:142-143): at each position, `img-` followed by 16
lowercase hex digits; the scan resumes after a match. -/
def findImageIdsF : Nat → List Char → List (List Char)
  | _, [] => []
  | 0, _ => []
  | fuel + 1, c :: rest =>
    if ("img-".toList).isPrefixOf (c :: rest) ∧
        (((c :: rest).drop 4).take 16).length = 16 ∧
        (((c :: rest).drop 4).take 16).all isHexLower then
      (c :: rest).take 20 :: findImageIdsF fuel ((c :: rest).drop 20)
    else findImageIdsF fuel rest

/-- The match list of `/img-[a-f0-9]{16}/g` on the whole html. -/
def findImageIds (s : List Char) : List (List Char) := findImageIdsF s.length s

/-- `[...new Set(matches)]`: deduplicate keeping first occurrences. -/
def dedupFirstGo (seen : List (List Char)) : List (List Char) → List (List Char)
  | [] => []
  | x :: xs => if x ∈ seen then dedupFirstGo seen xs else x :: dedupFirstGo (x :: seen) xs

/-- Deduplicate a match list keeping first occurrences. -/
def dedupFirst (l : List (List Char)) : List (List Char) := dedupFirstGo [] l

/-- JavaScript `html.split(pat).join(repl)` (RevealPreview.tsx:156). -/
def replaceAll (pat repl s : List Char) : List Char :=
  List.intercalate repl (splitOnSep pat s)

/-- The pure substitution performed by one `resolveImages` pass
(RevealPreview.tsx:138-166): collect the deduplicated `img-…` ids of the
compiled html, and for each id found in the store replace all its
occurrences with the stored data URL; ids missing from the store leave the
html untouched. -/
def resolveImages (store : List (List Char × List Char)) (slidesHtml : List Char) :
    List Char :=
  (dedupFirst (findImageIds slidesHtml)).foldl
    (fun html imageId =>
      match store.find? (fun e => e.1 = imageId) with
      | some e => replaceAll imageId e.2 html
      | none => html)
    slidesHtml

/-- What the component does with completed resolution passes
(RevealPreview.tsx:165, `setResolvedHtml(html)`): each completion overwrites
`resolvedHtml` unconditionally — `resolveImages` carries no sequence number
or staleness check, so after a list of completions, in completion order, the
rendered html is simply the last completion's result. -/
def applyCompletions (initial : List Char) (completions : List (List Char)) : List Char :=
  completions.foldl (fun _ r => r) initial

/-- JavaScript `s.includes(pat)` on strings. -/
def strIncludes (s pat : String) : Bool := containsSub pat.toList s.toList

/-- The splitting of the claim "split … at lines consisting solely of the
slide-delimiter sequence flanked by blank lines on both sides", modelled
from the spec's words for comparison with the code's split: the delimiter
line together with a blank line on each side is the character sequence
`\n\n---\n\n`. -/
def splitSpecBlankFlanked (md : List Char) : List (List Char) :=
  splitOnSep ("\n\n---\n\n".toList) md

/-- `splitOnSepF` always yields at least one segment, for any fuel. -/
theorem splitOnSepF_ne_nil (sep : List Char) (fuel : Nat) (s : List Char) :
    splitOnSepF sep fuel s ≠ [] := by
  match fuel, s with
  | fuel, [] => cases fuel <;> simp [splitOnSepF]
  | 0, c :: rest => simp [splitOnSepF]
  | fuel + 1, c :: rest =>
    simp only [splitOnSepF]
    split
    · simp
    · split <;> simp

/-- `splitOnSep` always yields at least one segment. -/
theorem splitOnSep_ne_nil (sep s : List Char) : splitOnSep sep s ≠ [] :=
  splitOnSepF_ne_nil sep s.length s

/-- With sufficient fuel, when the separator does not occur in `s`,
`splitOnSepF` yields exactly the single segment `s`. -/
theorem splitOnSepF_of_not_contains (sep : List Char) :
    ∀ (s : List Char) (fuel : Nat), s.length ≤ fuel → containsSub sep s = false →
      splitOnSepF sep fuel s = [s] := by
  intro s
  induction s with
  | nil => intro fuel _ _; cases fuel <;> simp [splitOnSepF]
  | cons c rest ih =>
    intro fuel hf h
    simp only [containsSub, Bool.or_eq_false_iff] at h
    cases fuel with
    | zero => simp at hf
    | succ f =>
      rw [splitOnSepF.eq_def]
      simp only []
      rw [if_neg (by simp [h.1])]
      rw [ih f (by simp at hf; omega) h.2]

/-- When the separator does not occur in `s`, `splitOnSep` yields exactly
the single segment `s`. -/
theorem splitOnSep_of_not_contains (sep s : List Char)
    (h : containsSub sep s = false) : splitOnSep sep s = [s] :=
  splitOnSepF_of_not_contains sep s s.length (Nat.le_refl _) h

/-- C2, counterexample: the claim says slides split exactly at delimiter
lines flanked by blank lines on both sides.  On `"a\n---\nb"` the delimiter
line is not flanked by blank lines, so the claim predicts one slide, but
`markdownToSlides` splits on bare `\n---\n` and produces two slides. -/
theorem c2_counterexample_unflanked_delimiter :
    (splitOnSep slideDelim ("a\n---\nb".toList)).length = 2
  ∧ (splitSpecBlankFlanked ("a\n---\nb".toList)).length = 1
  ∧ markdownToSlides "a\n---\nb" =
      "<section><p>a</p></section>\n<section><p>b</p></section>" := by
  refine ⟨by decide, by decide, by decide⟩

/-- C2, amended: the compiler splits the document at every occurrence of
the delimiter on its own line (`\n---\n`, no blank lines required); the
split is total — every document yields at least one slide, and a document
with no such occurrence yields exactly one slide whose source is the whole
text — and `markdownToSlides` is the pure per-segment compilation of this
split (each segment is trimmed as the first step of `compileSlide`). -/
theorem c2_split_on_own_line_delimiter (md : String) :
    1 ≤ (splitOnSep slideDelim md.toList).length
  ∧ (containsSub slideDelim md.toList = false →
      splitOnSep slideDelim md.toList = [md.toList])
  ∧ markdownToSlides md =
      ⟨List.intercalate ['\n'] ((splitOnSep slideDelim md.toList).map compileSlide)⟩ := by
  refine ⟨List.length_pos.mpr (splitOnSep_ne_nil slideDelim md.toList),
    fun h => splitOnSep_of_not_contains _ _ h, rfl⟩

/-- Witness for C2's amended theorem at the delimiter-free document
`"hello"`. -/
theorem c2_split_on_own_line_delimiter_witness :
    1 ≤ (splitOnSep slideDelim "hello".toList).length
  ∧ splitOnSep slideDelim "hello".toList = ["hello".toList] :=
  ⟨(c2_split_on_own_line_delimiter "hello").1,
   (c2_split_on_own_line_delimiter "hello").2.1 (by decide)⟩

/-- C3: the markdown-syntax image `![a](b)` never becomes an `<img>`
element and carries no fragment marking — the link pass
(RevealPreview.tsx:106) runs before the image pass
(RevealPreview.tsx:109) and rewrites `[a](b)` into an anchor first, so the
output is a paragraph containing `!` and a plain link. -/
theorem c3_markdown_image_loses_fragment :
    markdownToSlides "![a](b)" = "<section><p>!<a href=\"b\">a</a></p></section>"
  ∧ strIncludes (markdownToSlides "![a](b)") "fragment" = false
  ∧ strIncludes (markdownToSlides "![a](b)") "<img" = false := by
  refine ⟨by decide, by decide, by decide⟩

/-- C4: a fenced code block containing the line `# hi` does not keep its
body literal — the heading pass (RevealPreview.tsx:34-36) runs before the
code-block pass (RevealPreview.tsx:44-47), so the line is first converted
to `<h1>hi</h1>` and the code body renders as the escaped heading markup,
not as `# hi`. -/
theorem c4_code_fence_heading_converted :
    markdownToSlides "```\n# hi\n```" =
      "<section><pre><code>&lt;h1&gt;hi&lt;/h1&gt;</code></pre></section>"
  ∧ strIncludes (markdownToSlides "```\n# hi\n```") "# hi" = false
  ∧ strIncludes (markdownToSlides "```\n# hi\n```") "&lt;h1&gt;hi&lt;/h1&gt;" = true := by
  refine ⟨by decide, by decide, by decide⟩

/-- C5 (confirmed): on `"- A\n  - B\n  - C\n- D"` the nested-list parser
produces a single list with top-level fragment items `A` and `D` and with
`B`, `C` nested one level under `A`; and a line whose depth does not match
the current depth when the loop reaches it (so it is neither a sibling at
depth `d` nor part of a sibling's deeper lookahead run, which the loop
consumes before reaching it) is skipped: it produces no list entry and the
loop continues with the remaining items. -/
theorem c5_nested_list_parsing :
    (⟨listBlockToHtml ("- A\n  - B\n  - C\n- D".toList)⟩ : String) =
      "<ul>\n<li class=\"fragment\">A\n<ul>\n<li class=\"fragment\">B</li>\n<li class=\"fragment\">C</li>\n</ul></li>\n<li class=\"fragment\">D</li>\n</ul>"
  ∧ ∀ (it : LItem) (rest : List LItem) (depth : Nat), it.indent ≠ depth * 2 →
      parseListGo (it :: rest) depth = parseListGo rest depth := by
  constructor
  · decide
  · intro it rest depth h
    simp only [parseListGo, List.length_cons, parseListGoF]
    rw [if_neg h]

/-- Witness for C5's skip property: a lone item at indent 1 at depth 0 is
skipped and yields the empty item sequence's output. -/
theorem c5_nested_list_parsing_witness :
    parseListGo [⟨1, "z".toList⟩] 0 = parseListGo [] 0 :=
  c5_nested_list_parsing.2 ⟨1, "z".toList⟩ [] 0 (by decide)

/-- C10: emphasis markers inside an inline code span are not protected —
for the line `` `**a**` `` the inline-code pass runs first
(RevealPreview.tsx:50) and the bold pass then rewrites inside the produced
`<code>` element (RevealPreview.tsx:53), yielding
`<code><strong>a</strong></code>`. -/
theorem c10_inline_code_emphasis_converted :
    markdownToSlides "`**a**`" = "<section><p><code><strong>a</strong></code></p></section>"
  ∧ strIncludes (markdownToSlides "`**a**`") "<code><strong>a</strong></code>" = true
  ∧ strIncludes (markdownToSlides "`**a**`") "*" = false := by
  refine ⟨by decide, by decide, by decide⟩

/-- C8: `resolveImages` has no sequence number and no staleness check —
`setResolvedHtml` is simply `applyCompletions`, so when a pass started
first (for the html containing the image reference) completes after a pass
started second (for newer html), the stale pass's result is the one
applied, and it differs from the newer pass's result. -/
theorem c8_stale_pass_result_applied :
    applyCompletions
        ("<section><img class=\"fragment\" src=\"img-0123456789abcdef\"></section>".toList)
        [resolveImages [("img-0123456789abcdef".toList, "data:image/png;base64,AAAA".toList)]
           ("<section><p>v2</p></section>".toList),
         resolveImages [("img-0123456789abcdef".toList, "data:image/png;base64,AAAA".toList)]
           ("<section><img class=\"fragment\" src=\"img-0123456789abcdef\"></section>".toList)]
      = resolveImages [("img-0123456789abcdef".toList, "data:image/png;base64,AAAA".toList)]
          ("<section><img class=\"fragment\" src=\"img-0123456789abcdef\"></section>".toList)
  ∧ resolveImages [("img-0123456789abcdef".toList, "data:image/png;base64,AAAA".toList)]
        ("<section><img class=\"fragment\" src=\"img-0123456789abcdef\"></section>".toList)
      ≠ resolveImages [("img-0123456789abcdef".toList, "data:image/png;base64,AAAA".toList)]
          ("<section><p>v2</p></section>".toList) := by
  refine ⟨by decide, by decide⟩

/-- C1: the end-to-end example `"# A\n\n- x\n  - y\n\n---\n\n# B\n"`
compiles to exactly two slides; the first slide's markup contains the
heading `<h1>A</h1>` and a list whose single top-level fragment item `x`
contains the single nested fragment item `y`; the second slide's markup is
exactly `<section><h1>B</h1></section>`, a lone heading `B`. -/
theorem c1_end_to_end :
    (splitOnSep slideDelim ("# A\n\n- x\n  - y\n\n---\n\n# B\n".toList)).length = 2
  ∧ markdownToSlides "# A\n\n- x\n  - y\n\n---\n\n# B\n" =
      "<section><h1>A</h1>\n\n<ul>\n<li class=\"fragment\">x\n<ul>\n<li class=\"fragment\">y</li>\n<p></ul></li></p>\n<p></ul></p></section>\n<section><h1>B</h1></section>"
  ∧ strIncludes (markdownToSlides "# A\n\n- x\n  - y\n\n---\n\n# B\n") "<h1>A</h1>" = true
  ∧ strIncludes (markdownToSlides "# A\n\n- x\n  - y\n\n---\n\n# B\n")
      "<li class=\"fragment\">x\n<ul>\n<li class=\"fragment\">y</li>" = true := by
  refine ⟨by decide, by decide, by decide, by decide⟩

/-! ## Store lemmas -/

/-- After `idbPut st img`, every record carrying `img`'s key is `img`
itself. -/
theorem idbPut_entries (st : List StoredImage) (img : StoredImage) :
    ∀ e ∈ idbPut st img, e.id = img.id → e = img := by
  intro e he hid
  unfold idbPut at he
  by_cases h : st.any (fun x => x.id = img.id)
  · rw [if_pos h] at he
    obtain ⟨x, _, hxe⟩ := List.mem_map.mp he
    by_cases hx2 : x.id = img.id
    · rw [if_pos hx2] at hxe
      exact hxe.symm
    · rw [if_neg hx2] at hxe
      subst hxe
      exact absurd hid hx2
  · rw [if_neg h] at he
    rcases List.mem_append.mp he with h1 | h2
    · exfalso
      exact h (List.any_eq_true.mpr ⟨e, h1, by simp [hid]⟩)
    · have : e = img := by simpa using h2
      exact this

/-- After `idbPut st img`, a record with `img`'s key is present. -/
theorem idbPut_mem_id (st : List StoredImage) (img : StoredImage) :
    (idbPut st img).any (fun e => e.id = img.id) = true := by
  unfold idbPut
  by_cases h : st.any (fun x => x.id = img.id)
  · rw [if_pos h]
    obtain ⟨x, hx, hxid⟩ := List.any_eq_true.mp h
    refine List.any_eq_true.mpr ⟨img, ?_, by simp⟩
    refine List.mem_map.mpr ⟨x, hx, ?_⟩
    simp at hxid
    rw [if_pos hxid]
  · rw [if_neg h]
    exact List.any_eq_true.mpr ⟨img, by simp, by simp⟩

/-- C6: `storeImage` is idempotent by content address.  Storing
byte-identical content twice returns the same identifier both times; the
second call is an upsert of an identical record (apart from the
`createdAt` timestamp, which no accessor of the module exposes), so it
neither creates a duplicate entry nor errors — the stored (id, bytes,
mimeType) list is unchanged — and `getStorageSize` after the second call
equals its value after the first. -/
theorem c6_storeImage_idempotent (hash : List Nat → List Char) (st : List StoredImage)
    (bytes : List Nat) (mime : String) (t1 t2 : Nat) :
    (storeImage hash (storeImage hash st bytes mime t1).2 bytes mime t2).1 =
      (storeImage hash st bytes mime t1).1
  ∧ ((storeImage hash (storeImage hash st bytes mime t1).2 bytes mime t2).2).map
        (fun e => (e.id, e.data, e.mimeType)) =
      ((storeImage hash st bytes mime t1).2).map (fun e => (e.id, e.data, e.mimeType))
  ∧ getStorageSize (storeImage hash (storeImage hash st bytes mime t1).2 bytes mime t2).2 =
      getStorageSize (storeImage hash st bytes mime t1).2 := by
  have hmain :
      ((storeImage hash (storeImage hash st bytes mime t1).2 bytes mime t2).2).map
          (fun e => (e.id, e.data, e.mimeType)) =
        ((storeImage hash st bytes mime t1).2).map (fun e => (e.id, e.data, e.mimeType)) := by
    show (idbPut (idbPut st ⟨generateImageId hash bytes, bytes, mime, t1⟩
        ) ⟨generateImageId hash bytes, bytes, mime, t2⟩).map _ = _
    have hany := idbPut_mem_id st ⟨generateImageId hash bytes, bytes, mime, t1⟩
    rw [idbPut, if_pos hany, List.map_map]
    apply List.map_congr_left
    intro e he
    by_cases hid : e.id = generateImageId hash bytes
    · have : e = ⟨generateImageId hash bytes, bytes, mime, t1⟩ :=
        idbPut_entries st _ e he hid
      subst this
      simp
    · simp [hid]
  refine ⟨rfl, hmain, ?_⟩
  have hsizes :
      ((storeImage hash (storeImage hash st bytes mime t1).2 bytes mime t2).2).map
          (fun e => e.data.length) =
        ((storeImage hash st bytes mime t1).2).map (fun e => e.data.length) := by
    have h1 := congrArg (List.map (fun p : String × List Nat × String => p.2.1.length)) hmain
    simpa [List.map_map, Function.comp] using h1
  unfold getStorageSize
  rw [hsizes]

/-- The count accumulated by the cleanup loop: one per id not occurring in
the markdown, independent of the store contents. -/
theorem cleanupFold_fst (md : String) :
    ∀ (ids : List String) (n : Nat) (cur : List StoredImage),
      (ids.foldl (cleanupStep md) (n, cur)).1 =
        n + (ids.filter (fun id => !containsSub id.toList md.toList)).length := by
  intro ids
  induction ids with
  | nil => intro n cur; simp
  | cons id ids ih =>
    intro n cur
    cases h : containsSub id.toList md.toList with
    | true =>
      have h' : containsSub id.data md.data = true := h
      simp [cleanupStep, h, h', ih]
    | false =>
      have h' : containsSub id.data md.data = false := h
      simp [cleanupStep, h, h', ih]
      omega

/-- The store left by the cleanup loop: a record survives iff every id of
the walked list either occurs in the markdown or differs from the record's
key. -/
theorem cleanupFold_snd (md : String) :
    ∀ (ids : List String) (n : Nat) (cur : List StoredImage),
      (ids.foldl (cleanupStep md) (n, cur)).2 =
        cur.filter (fun e =>
          ids.all (fun id => containsSub id.toList md.toList || decide (e.id ≠ id))) := by
  intro ids
  induction ids with
  | nil => intro n cur; simp
  | cons id ids ih =>
    intro n cur
    cases h : containsSub id.toList md.toList with
    | true =>
      have h' : containsSub id.data md.data = true := h
      rw [List.foldl_cons,
        show cleanupStep md (n, cur) id = (n, cur) from by simp [cleanupStep, h, h'], ih]
      apply List.filter_congr
      intro e _
      simp [h, h']
    | false =>
      have h' : containsSub id.data md.data = false := h
      rw [List.foldl_cons,
        show cleanupStep md (n, cur) id = (n + 1, deleteImage cur id) from by
          simp [cleanupStep, h, h'],
        ih]
      unfold deleteImage
      rw [List.filter_filter]
      apply List.filter_congr
      intro e _
      simp [h, h', Bool.and_comm]

/-- Filtering the image of a map has the same length as filtering through
the map. -/
theorem length_filter_map_id (p : String → Bool) :
    ∀ l : List StoredImage,
      ((l.map StoredImage.id).filter p).length = (l.filter (fun e => p e.id)).length := by
  intro l
  induction l with
  | nil => rfl
  | cons a l ih => cases h : p a.id <;> simp [h, ih]

/-- The store after `cleanupUnusedImages` keeps exactly the records whose
id occurs in the markdown. -/
theorem cleanup_snd_eq (st : List StoredImage) (md : String) :
    (cleanupUnusedImages st md).2 =
      st.filter (fun e => containsSub e.id.toList md.toList) := by
  unfold cleanupUnusedImages getAllImageIds
  rw [cleanupFold_snd]
  apply List.filter_congr
  intro e he
  cases hPe : containsSub e.id.toList md.toList with
  | true =>
    have hPe' : containsSub e.id.data md.data = true := hPe
    apply List.all_eq_true.mpr
    intro id hid
    by_cases hideq : e.id = id
    · subst hideq
      simp [hPe, hPe']
    · simp [hideq]
  | false =>
    have hPe' : containsSub e.id.data md.data = false := hPe
    apply List.all_eq_false.mpr
    exact ⟨e.id, List.mem_map_of_mem _ he, by simp [hPe, hPe']⟩

/-- The count returned by `cleanupUnusedImages` is the number of records
whose id does not occur in the markdown. -/
theorem cleanup_fst_eq (st : List StoredImage) (md : String) :
    (cleanupUnusedImages st md).1 =
      (st.filter (fun e => !containsSub e.id.toList md.toList)).length := by
  unfold cleanupUnusedImages getAllImageIds
  rw [cleanupFold_fst]
  rw [length_filter_map_id]
  simp

/-- C7: `cleanupUnusedImages` deletes exactly the stored records whose id
does not occur as a substring of the document text, leaves every other
record untouched (in order), returns the number of records removed, and is
idempotent — an immediate second call with the same document removes zero
and leaves the store unchanged. -/
theorem c7_cleanup_removes_exactly_unreferenced (st : List StoredImage) (md : String) :
    (cleanupUnusedImages st md).2 =
      st.filter (fun e => containsSub e.id.toList md.toList)
  ∧ (cleanupUnusedImages st md).1 =
      (st.filter (fun e => !containsSub e.id.toList md.toList)).length
  ∧ cleanupUnusedImages (cleanupUnusedImages st md).2 md =
      (0, (cleanupUnusedImages st md).2) := by
  refine ⟨cleanup_snd_eq st md, cleanup_fst_eq st md, ?_⟩
  apply Prod.ext
  · rw [cleanup_fst_eq, cleanup_snd_eq, List.filter_filter]
    have : st.filter (fun a =>
        !containsSub a.id.toList md.toList && containsSub a.id.toList md.toList) = [] := by
      rw [List.filter_congr (q := fun _ => false) ?_]
      · exact List.filter_false _
      · intro e _
        cases containsSub e.id.toList md.toList <;> simp
    rw [this]
    rfl
  · rw [cleanup_snd_eq, cleanup_snd_eq]
    apply List.filter_eq_self.mpr
    intro e he
    exact (List.mem_filter.mp he).2

end Foilsigh
